import Mathlib

/-!
Shallow embedding of the `parsec` parser-combinator library
(`parsec/parse.py`) and of the algebraic-expression grammar built on top
of it (`parsec/algebra.py`), together with theorems settling the frozen
claims about the repository.

Modelling conventions.
* Python strings are modelled as `List Char` (named `Str` below).
* A parser is a function from the input string to either a `ParseError`
  message or a value paired with the unconsumed remainder
  (`raise ParseError(msg)` becomes `Except.error msg`).
* Python is dynamically typed, so parser result values live in one
  dynamic type `Val`; Python floats are modelled as exact rationals
  (every numeric literal appearing in the claims is a small integer, on
  which the two semantics agree).
* The mutually recursive grammar functions of `algebra.py` are embedded
  with an explicit fuel parameter (`run` below); the termination theorem
  for claim C9 shows that fuel linear in the input length always
  suffices, which justifies the fuel chosen in `full_expression`.
-/

namespace Parsec

abbrev Str : Type := List Char

/-- Dynamic (Python-style) values produced by parsers: `None`, strings,
numbers, lists, and the `Variable` / `Operation` symbol wrappers defined
in `algebra.py`. -/
inductive Val : Type where
  | vnone : Val
  | vstr : Str → Val
  | vnum : ℚ → Val
  | vlist : List Val → Val
  | vvar : Str → Val
  | vop : Str → Val

mutual

/-- Decidable equality on dynamic values (written by hand because
`deriving` does not support the nested `List Val`). -/
def Val.decEq : (a b : Val) → Decidable (a = b)
  | .vnone, .vnone => .isTrue rfl
  | .vstr x, .vstr y =>
    if h : x = y then .isTrue (by subst h; rfl)
    else .isFalse (by intro hh; injection hh; contradiction)
  | .vnum x, .vnum y =>
    if h : x = y then .isTrue (by subst h; rfl)
    else .isFalse (by intro hh; injection hh; contradiction)
  | .vvar x, .vvar y =>
    if h : x = y then .isTrue (by subst h; rfl)
    else .isFalse (by intro hh; injection hh; contradiction)
  | .vop x, .vop y =>
    if h : x = y then .isTrue (by subst h; rfl)
    else .isFalse (by intro hh; injection hh; contradiction)
  | .vlist xs, .vlist ys =>
    match Val.decEqList xs ys with
    | .isTrue h => .isTrue (by subst h; rfl)
    | .isFalse h => .isFalse (by intro hh; injection hh; contradiction)
  | .vnone, .vstr _ => .isFalse (fun h => Val.noConfusion h)
  | .vnone, .vnum _ => .isFalse (fun h => Val.noConfusion h)
  | .vnone, .vlist _ => .isFalse (fun h => Val.noConfusion h)
  | .vnone, .vvar _ => .isFalse (fun h => Val.noConfusion h)
  | .vnone, .vop _ => .isFalse (fun h => Val.noConfusion h)
  | .vstr _, .vnone => .isFalse (fun h => Val.noConfusion h)
  | .vstr _, .vnum _ => .isFalse (fun h => Val.noConfusion h)
  | .vstr _, .vlist _ => .isFalse (fun h => Val.noConfusion h)
  | .vstr _, .vvar _ => .isFalse (fun h => Val.noConfusion h)
  | .vstr _, .vop _ => .isFalse (fun h => Val.noConfusion h)
  | .vnum _, .vnone => .isFalse (fun h => Val.noConfusion h)
  | .vnum _, .vstr _ => .isFalse (fun h => Val.noConfusion h)
  | .vnum _, .vlist _ => .isFalse (fun h => Val.noConfusion h)
  | .vnum _, .vvar _ => .isFalse (fun h => Val.noConfusion h)
  | .vnum _, .vop _ => .isFalse (fun h => Val.noConfusion h)
  | .vlist _, .vnone => .isFalse (fun h => Val.noConfusion h)
  | .vlist _, .vstr _ => .isFalse (fun h => Val.noConfusion h)
  | .vlist _, .vnum _ => .isFalse (fun h => Val.noConfusion h)
  | .vlist _, .vvar _ => .isFalse (fun h => Val.noConfusion h)
  | .vlist _, .vop _ => .isFalse (fun h => Val.noConfusion h)
  | .vvar _, .vnone => .isFalse (fun h => Val.noConfusion h)
  | .vvar _, .vstr _ => .isFalse (fun h => Val.noConfusion h)
  | .vvar _, .vnum _ => .isFalse (fun h => Val.noConfusion h)
  | .vvar _, .vlist _ => .isFalse (fun h => Val.noConfusion h)
  | .vvar _, .vop _ => .isFalse (fun h => Val.noConfusion h)
  | .vop _, .vnone => .isFalse (fun h => Val.noConfusion h)
  | .vop _, .vstr _ => .isFalse (fun h => Val.noConfusion h)
  | .vop _, .vnum _ => .isFalse (fun h => Val.noConfusion h)
  | .vop _, .vlist _ => .isFalse (fun h => Val.noConfusion h)
  | .vop _, .vvar _ => .isFalse (fun h => Val.noConfusion h)

/-- Decidable equality on lists of dynamic values. -/
def Val.decEqList : (as bs : List Val) → Decidable (as = bs)
  | [], [] => .isTrue rfl
  | [], _ :: _ => .isFalse (fun h => List.noConfusion h)
  | _ :: _, [] => .isFalse (fun h => List.noConfusion h)
  | a :: as, b :: bs =>
    match Val.decEq a b with
    | .isFalse h1 => .isFalse (by intro hh; injection hh; contradiction)
    | .isTrue h1 =>
      match Val.decEqList as bs with
      | .isTrue h2 => .isTrue (by rw [h1, h2])
      | .isFalse h2 => .isFalse (by intro hh; injection hh; contradiction)

end

instance : DecidableEq Val := Val.decEq

/-- Decidable equality for `Except` (not provided by the library). -/
instance {ε α : Type} [DecidableEq ε] [DecidableEq α] : DecidableEq (Except ε α) := fun a b =>
  match a, b with
  | .error x, .error y =>
    if h : x = y then .isTrue (by subst h; rfl)
    else .isFalse (by intro hh; injection hh; contradiction)
  | .ok x, .ok y =>
    if h : x = y then .isTrue (by subst h; rfl)
    else .isFalse (by intro hh; injection hh; contradiction)
  | .error _, .ok _ => .isFalse (fun h => Except.noConfusion h)
  | .ok _, .error _ => .isFalse (fun h => Except.noConfusion h)

/-- Result of running a parser on an input: a `ParseError` message or a
value together with the remainder of the input. -/
abbrev PResult : Type := Except Str (Val × Str)

abbrev Parser : Type := Str → PResult

/-- The single-quote character, used by several source error messages. -/
def sq : Char := Char.ofNat 39

/-! ### Primitive parsers (`parsec/parse.py`) -/

/-- `digit` from `parse.py`: one ASCII digit. -/
def digit : Parser := fun s =>
  match s with
  | [] => .error "empty string".toList
  | c :: rest =>
    if 48 ≤ c.toNat ∧ c.toNat ≤ 57 then .ok (.vstr [c], rest)
    else .error "not a digit".toList

/-- `letter` from `parse.py`: one ASCII letter. -/
def letter : Parser := fun s =>
  match s with
  | [] => .error "empty string".toList
  | c :: rest =>
    if (65 ≤ c.toNat ∧ c.toNat ≤ 90) ∨ (97 ≤ c.toNat ∧ c.toNat ≤ 122) then
      .ok (.vstr [c], rest)
    else .error "not a letter".toList

/-- `space` from `parse.py`: whitespace, tab, or new line. -/
def space : Parser := fun s =>
  match s with
  | [] => .error "empty string".toList
  | c :: rest =>
    if c = ' ' ∨ c = '\t' ∨ c = '\n' then .ok (.vstr [c], rest)
    else .error "not whitespace, tab or new line character".toList

/-- Error message of `literal`: `"doesn't match literal '%s'" % lit`. -/
def literalMsg (lit : Str) : Str :=
  "doesn".toList ++ sq :: "t match literal ".toList ++ sq :: lit ++ [sq]

/-- `literal(lit)` from `parse.py`: matches a literal substring.  (The
source raises `ValueError` at construction time when `lit` is empty;
every literal built by the repository is non-empty.) -/
def literal (lit : Str) : Parser := fun s =>
  if lit.isPrefixOf s then .ok (.vstr lit, s.drop lit.length)
  else .error (literalMsg lit)

/-- `end` from `parse.py` (renamed: `end` is a Lean keyword): matches
the end of input. -/
def end_ : Parser := fun s =>
  match s with
  | [] => .ok (.vnone, [])
  | _ => .error "not the end of input".toList

/-- Python `repr` of a tuple of one-character strings, as interpolated
by the `except_` error message. -/
def tupleRepr (cs : List Char) : Str :=
  match cs with
  | [] => "()".toList
  | [c] => '(' :: sq :: c :: sq :: ",)".toList
  | _ => '(' :: (List.intercalate ", ".toList (cs.map (fun c => [sq, c, sq]))) ++ [')']

/-- `except_(*letters)` from `parse.py`: any character except those in
`letters`. -/
def except_ (letters : List Char) : Parser := fun s =>
  match s with
  | [] => .error "empty string".toList
  | c :: rest =>
    if c ∈ letters then .error ("input matches one of ".toList ++ tupleRepr letters)
    else .ok (.vstr [c], rest)

/-- `anything` from `parse.py`: any one character. -/
def anything : Parser := except_ []

/-! ### Combinators (`parsec/parse.py`) -/

/-- `pmap(p)(function)` from `parse.py`: maps a function over the result
of `p`. -/
def pmap (p : Parser) (f : Val → Val) : Parser := fun s =>
  match p s with
  | .error e => .error e
  | .ok (v, r) => .ok (f v, r)

/-- `try_(p)` from `parse.py`: like `p`, but on failure returns `None`
without consuming input. -/
def try_ (p : Parser) : Parser := fun s =>
  match p s with
  | .ok vr => .ok vr
  | .error _ => .ok (.vnone, s)

/-- `dropvalue(p)` from `parse.py`: like `p` but returns `None` on
success. -/
def dropvalue (p : Parser) : Parser := pmap p (fun _ => .vnone)

/-- Error message of `errormessage`: `msg + " -- at '{0}...'"` with the
first five input characters interpolated. -/
def atMsg (msg s : Str) : Str :=
  msg ++ " -- at ".toList ++ sq :: s.take 5 ++ "...".toList ++ [sq]

/-- `errormessage(msg)(p)` from `parse.py`: like `p`, but failing with
message `msg` plus the first few characters of the input. -/
def errormessage (msg : Str) (p : Parser) : Parser := fun s =>
  match p s with
  | .ok vr => .ok vr
  | .error _ => .error (atMsg msg s)

/-- The loop of `many(p)`, with an explicit iteration bound (`many`
itself loops unboundedly in Python; theorem support below shows the
bound chosen in `many` is never hit for parsers that only consume a
prefix of their input).  An iteration in which `p` succeeds without
consuming input raises `ParseError("no input is being consumed")`
*inside* the loop's own `try`, so the loop catches it immediately and
returns the results accumulated so far, exactly like an ordinary
failure of `p`.  The parser argument may itself be fuel-limited (used
for `many(infix_expression(...))`), hence the `Option` layer: `none`
propagates non-termination. -/
def manyAuxF (q : Str → Option PResult) : Nat → List Val → Str → Option (List Val × Str)
  | 0, _, _ => none
  | fuel + 1, acc, s =>
    match q s with
    | none => none
    | some (.error _) => some (acc, s)
    | some (.ok (v, r)) =>
      if r = s then some (acc, s)
      else manyAuxF q fuel (acc ++ [v]) r

/-- Lifts an always-terminating parser into the fuel-aware shape. -/
def liftP (p : Parser) : Str → Option PResult := fun s => some (p s)

/-- `many(p)` from `parse.py`: attempts `p` at least zero times,
consuming as much as possible and returning the list of results; it
cannot fail with a `ParseError`.  The internal iteration bound
`s.length + 1` is an artifact of the embedding: the loop body only
continues while input is being consumed, so for any parser returning a
suffix of its input the bound is never reached (the `"nontermination"`
branch is unreachable; see the suffix-invariant theorems). -/
def many (p : Parser) : Parser := fun s =>
  match manyAuxF (liftP p) (s.length + 1) [] s with
  | some (vs, r) => .ok (.vlist vs, r)
  | none => .error "nontermination".toList

/-- `[value] + values` in `manyone`: prepends a value to a parsed list
(`many` always returns a list). -/
def consVal (v : Val) (vs : Val) : Val :=
  match vs with
  | .vlist l => .vlist (v :: l)
  | w => w

/-- `manyone(p)` from `parse.py`: attempts `p` at least one time. -/
def manyone (p : Parser) : Parser := fun s =>
  match p s with
  | .error e => .error e
  | .ok (v, r) =>
    match many p r with
    | .error e => .error e
    | .ok (vs, r2) => .ok (consVal v vs, r2)

/-- The threading loop of `sequence`: runs the parsers in order, each on
the remainder left by the previous one, accumulating the values. -/
def seqAux : List Parser → Str → Except Str (List Val × Str)
  | [], s => .ok ([], s)
  | p :: ps, s =>
    match p s with
    | .error e => .error e
    | .ok (v, r) =>
      match seqAux ps r with
      | .error e => .error e
      | .ok (vs, r2) => .ok (v :: vs, r2)

/-- `sequence(*ps)` from `parse.py`: sequences parsers, accumulating the
results in a list. -/
def sequence (ps : List Parser) : Parser := fun s =>
  match seqAux ps s with
  | .error e => .error e
  | .ok (vs, r) => .ok (.vlist vs, r)

/-- The string join performed by `concat`: `"".join(filter(bool, values))`
keeps exactly the non-empty strings (the values produced by the
repository's uses of `concat` are strings or `None`). -/
def joinTruthy (vs : List Val) : Str :=
  vs.foldr (fun v acc => match v with
    | .vstr cs => if cs = [] then acc else cs ++ acc
    | _ => acc) []

/-- `concat(*ps)` from `parse.py`: sequences parsers returning strings
and concatenates the results, filtering out `None`.  (The source's
`if values is None` test is dead code: `sequence` always returns a
list.) -/
def concat (ps : List Parser) : Parser := fun s =>
  match seqAux ps s with
  | .error e => .error e
  | .ok (vs, r) => .ok (.vstr (joinTruthy vs), r)

/-- The loop of `or_`, carrying the accumulated composite message.  The
source appends `e.args[0] + "\n"` whenever the failure's message is not
`None` — every `ParseError` raised in the repository carries a string
message (possibly empty), so the message is always appended — and
finally fails with `message[:-1]`. -/
def orAux : List Parser → Str → Str → PResult
  | [], msg, _ => .error msg.dropLast
  | p :: ps, msg, s =>
    match p s with
    | .ok vr => .ok vr
    | .error e => orAux ps (msg ++ e ++ ['\n']) s

/-- `or_(*ps)` from `parse.py`: attempts the given parsers in order on
the same input and returns the result of the first that does not fail;
if all fail, fails with the accumulated composite message. -/
def or_ (ps : List Parser) : Parser := fun s => orAux ps [] s

/-- The fuel-aware variant of the `or_` loop, for alternatives that are
themselves part of the recursive grammar (`none` propagates
non-termination of an alternative). -/
def orAuxF : List (Str → Option PResult) → Str → Str → Option PResult
  | [], msg, _ => some (.error msg.dropLast)
  | q :: qs, msg, s =>
    match q s with
    | none => none
    | some (.ok vr) => some (.ok vr)
    | some (.error e) => orAuxF qs (msg ++ e ++ ['\n']) s

/-- `or_` over possibly fuel-limited alternatives. -/
def orF (qs : List (Str → Option PResult)) : Str → Option PResult := fun s => orAuxF qs [] s

/-- Failure message of `runparser`:
`"<{0}> parser didn't consume all input; remaining '{1}'"`. -/
def runparserMsg (name remainder : Str) : Str :=
  '<' :: name ++ "> parser didn".toList ++ sq :: "t consume all input; remaining ".toList
    ++ sq :: remainder ++ [sq]

/-- `runparser(p, string, ignore_remainder=False)` from `parse.py`: runs
`p` on `string`, returning its value; unless `ignore_remainder` is set,
a non-empty remainder is itself a failure quoting the remainder and
naming the parser (Python reads the name from `p.__name__`; the
embedding passes it explicitly). -/
def runparser (name : Str) (p : Parser) (string : Str) (ignore_remainder : Bool) :
    Except Str Val :=
  match p string with
  | .error e => .error e
  | .ok (value, remainder) =>
    if ignore_remainder then .ok value
    else if remainder = [] then .ok value
    else .error (runparserMsg name remainder)

/-! ### The algebraic-expression grammar (`parsec/algebra.py`) -/

/-- Digit characters to a natural number, as Python `float` does on an
all-digit string (exactly, for the integer part). -/
def digitsToNat (cs : Str) : Nat :=
  cs.foldl (fun n c => 10 * n + (c.toNat - 48)) 0

/-- `"".join(...)` over a list of parsed one-character strings. -/
def joinStrs (vs : List Val) : Str :=
  vs.foldr (fun v acc => match v with
    | .vstr cs => cs ++ acc
    | _ => acc) []

/-- `sign * magnitude` where the sign is `-1` exactly when the dash was
parsed (`sign = -1; if dash is None: sign = 1`); written as a
conditional negation so that the value stays kernel-computable. -/
def signApply (dash : Val) (q : ℚ) : Val :=
  match dash with
  | .vnone => .vnum q
  | _ => .vnum (-q)

/-- The function body of `number` in `algebra.py`: unpacks
`dash, _, intdigits, floatpart` and builds the (signed, possibly
fractional) numeric value.  Python stores
`float("".join(intdigits + [dot] + decimaldigits))`; the embedding
keeps the exact decimal value `(int·10^k + frac) / 10^k` as a
rational.  The final catch-alls embed shapes that the decorated parser
never produces. -/
def numberFn : Val → Val
  | .vlist [dash, _, .vlist ints, floatpart] =>
    match floatpart with
    | .vnone => signApply dash ((digitsToNat (joinStrs ints) : ℚ))
    | .vlist [_, .vlist decs] =>
      let ds := joinStrs decs
      signApply dash (mkRat ((digitsToNat (joinStrs ints ++ ds) : Nat) : Int) (10 ^ ds.length))
    | _ => .vnone
  | _ => .vnone

/-- `number` from `algebra.py`: optional dash, optional spaces, at
least one digit, optional `.` followed by at least one digit; wrapped
in `errormessage("input is not a valid number")`. -/
def number : Parser :=
  errormessage "input is not a valid number".toList
    (pmap (sequence [try_ (literal ['-']),
                     dropvalue (many space),
                     manyone digit,
                     try_ (sequence [literal ['.'], manyone digit])])
      numberFn)

/-- The function body of `variable` in `algebra.py`: joins the first
letter with the following letters/digits/underscores into a
`Variable`. -/
def variableFn : Val → Val
  | .vlist [.vstr first, .vlist rest] => .vvar (first ++ joinStrs rest)
  | _ => .vnone

/-- `variable` from `algebra.py` (renamed: `variable` is a Lean
keyword): a letter followed by letters, digits or `_`. -/
def variable_ : Parser :=
  errormessage "input is not a valid variable name".toList
    (pmap (sequence [letter, many (or_ [letter, digit, literal ['_']])])
      variableFn)

/-- `infix_operations` from `algebra.py`: the operator table,
`(literal, precedence)`. -/
def infx_operations : List (Str × Nat) :=
  [(['+'], 1), (['*'], 2), (['-'], 1), (['/'], 2), (['^'], 3)]

/-- `infix_operations[op]`: dictionary lookup of an operator's
precedence (every key looked up by the grammar is present in the
table; a missing key would be a Python `KeyError`). -/
def lookupPrec (op : Str) : Nat :=
  (infx_operations.lookup op).getD 0

/-- `minprecedence()` from `algebra.py`: the least precedence in the
operator table (Python's `min` would raise on an empty table; the
table is non-empty). -/
def minprecedence : Nat :=
  match infx_operations.map Prod.snd with
  | [] => 0
  | v :: vs => vs.foldl Nat.min v

/-- `Operation(symbol)` applied to a parsed literal. -/
def operationOf : Val → Val
  | .vstr s => .vop s
  | v => v

/-- `prefix_operations` from `algebra.py`: negation dash, `sin`,
`cos`. -/
def prefx_operations : List Parser :=
  [pmap (literal ['-']) (fun _ => .vop "negate".toList),
   pmap (literal "sin".toList) operationOf,
   pmap (literal "cos".toList) operationOf]

/-- `spaces` from `algebra.py`. -/
def spaces : Parser := many space

/-- The string stored in a parsed operator literal. -/
def strOf : Val → Str
  | .vstr s => s
  | _ => []

/-- The fold in `expression`:
`for infix in infixes: exp = [infix[0], exp, infix[1]]`
(each element produced by the infix-operation parser is a two-element
list `[Operation(op), rhs]`). -/
def foldInfixes (exp : Val) (infixes : List Val) : Val :=
  infixes.foldl (fun e i => match i with
    | .vlist [op, rhs] => .vlist [op, e, rhs]
    | _ => e) exp

/-- Tags for the mutually recursive grammar functions of `algebra.py`:
`expression(current_precedence)`, `prefix_expression`,
`wrapped_expression`, `infix_expression(current_precedence)` and
`full_expression`. -/
inductive Call : Type where
  | expr : Nat → Call
  | prefx : Call
  | wrapped : Call
  | infx : Nat → Call
  | full : Call

/-- The mutually recursive grammar of `algebra.py`, embedded with a fuel
parameter that decreases on every recursive call (`none` = fuel
exhausted; the termination theorem shows fuel `4 * length + 4` always
suffices).  Each branch is the line-by-line translation of the
corresponding Python function, with the `sequence(...)` threading of
intermediate remainders written out explicitly:

* `Call.expr prec`: `sequence(spaces, or_(number, prefix_expression,
  wrapped_expression, variable), spaces,
  many(infix_expression(prec)), spaces)` followed by the left fold of
  the collected infix continuations;
* `Call.prefx`: `sequence(or_(*prefix_operations), spaces,
  or_(wrapped_expression, number, prefix_expression, variable))`,
  returning `[value[0], value[2]]`;
* `Call.wrapped`: `sequence(literal('('), full_expression,
  literal(')'))`, returning `value[1]`;
* `Call.infx prec`: the infix operator literal, the table lookup, the
  precedence gate `precedence < current_precedence`, then
  `expression(precedence)` for the right-hand side;
* `Call.full`: `expression(minprecedence())`. -/
def run : Nat → Call → Str → Option PResult
  | 0, _, _ => none
  | f + 1, .expr prec, s =>
    match spaces s with
    | .error e => some (.error e)
    | .ok (_, s1) =>
      match orF [liftP number, run f .prefx, run f .wrapped, liftP variable_] s1 with
      | none => none
      | some (.error e) => some (.error e)
      | some (.ok (exp, s2)) =>
        match spaces s2 with
        | .error e => some (.error e)
        | .ok (_, s3) =>
          match manyAuxF (run f (.infx prec)) (s3.length + 1) [] s3 with
          | none => none
          | some (infixes, s4) =>
            match spaces s4 with
            | .error e => some (.error e)
            | .ok (_, s5) => some (.ok (foldInfixes exp infixes, s5))
  | f + 1, .prefx, s =>
    match or_ prefx_operations s with
    | .error e => some (.error e)
    | .ok (opv, s1) =>
      match spaces s1 with
      | .error e => some (.error e)
      | .ok (_, s2) =>
        match orF [run f .wrapped, liftP number, run f .prefx, liftP variable_] s2 with
        | none => none
        | some (.error e) => some (.error e)
        | some (.ok (arg, s3)) => some (.ok (.vlist [opv, arg], s3))
  | f + 1, .wrapped, s =>
    match literal ['('] s with
    | .error e => some (.error e)
    | .ok (_, s1) =>
      match run f .full s1 with
      | none => none
      | some (.error e) => some (.error e)
      | some (.ok (inner, s2)) =>
        match literal [')'] s2 with
        | .error e => some (.error e)
        | .ok (_, s3) => some (.ok (inner, s3))
  | f + 1, .infx prec, s =>
    match or_ (infx_operations.map (fun kv => literal kv.1)) s with
    | .error e => some (.error e)
    | .ok (opv, s1) =>
      let precedence := lookupPrec (strOf opv)
      if precedence < prec then some (.error [])
      else
        match run f (.expr precedence) s1 with
        | none => none
        | some (.error e) => some (.error e)
        | some (.ok (exp, s2)) => some (.ok (.vlist [.vop (strOf opv), exp], s2))
  | f + 1, .full, s => run f (.expr minprecedence) s

/-- `full_expression` from `algebra.py`: `expression(minprecedence())`,
run with the linear fuel that the termination theorem proves
sufficient (so the default is never taken). -/
def full_expression (s : Str) : PResult :=
  (run (4 * s.length + 4) .full s).getD (.error "nontermination".toList)

/-- `parse_expression(input_)` from `algebra.py`:
`runparser(full_expression, input_)` (so `ignore_remainder` is left
`False`, and `p.__name__` is `"full_expression"`). -/
def parse_expression (input : Str) : Except Str Val :=
  runparser "full_expression".toList full_expression input false

/-! ### The prefix-consumption invariant

`SuffixP p` states that whenever `p` succeeds, the unconsumed remainder
it returns is a suffix of its input — i.e. the parser only consumed a
prefix of the input, without altering, reordering or fabricating the
rest. -/

/-- A parser only ever returns a suffix of its input as the remainder. -/
def SuffixP (p : Parser) : Prop :=
  ∀ s v r, p s = .ok (v, r) → r <:+ s

/-- `SuffixP` for fuel-aware parsers. -/
def FSuffixP (q : Str → Option PResult) : Prop :=
  ∀ s v r, q s = some (.ok (v, r)) → r <:+ s

/-- A parser that, on success, always consumes at least one character. -/
def StrictP (p : Parser) : Prop :=
  ∀ s v r, p s = .ok (v, r) → r.length < s.length

/-- The weight of each grammar function in the termination measure
`4 * length + weight` (the weight strictly drops on the recursive calls
that do not consume input, namely `expression → prefix/wrapped
alternative` and `full_expression → expression`). -/
def callWeight : Call → Nat
  | .expr _ => 2
  | .prefx => 0
  | .wrapped => 1
  | .infx _ => 0
  | .full => 3

/-- The message of a failed parse (empty for a success); used to state
what `or_` accumulates. -/
def errOf : PResult → Str
  | .error e => e
  | .ok _ => []

/-- Newline-joined concatenation of a list of messages — the composite
failure message that `or_` produces (note: *all* messages are joined,
empty ones included; the source filters on `is not None`, which never
excludes a string message). -/
def newlineJoin : List Str → Str
  | [] => []
  | [m] => m
  | m :: ms => m ++ '\n' :: newlineJoin ms

/-- The parsers built from the library's primitives and combinators
(`parsec/parse.py`); the universe of claim C10's quantification. -/
inductive Built : Parser → Prop where
  | digit : Built digit
  | letter : Built letter
  | space : Built space
  | end_ : Built end_
  | literal : ∀ lit, Built (literal lit)
  | except_ : ∀ letters, Built (except_ letters)
  | anything : Built anything
  | many : ∀ p, Built p → Built (many p)
  | manyone : ∀ p, Built p → Built (manyone p)
  | sequence : ∀ ps, (∀ p ∈ ps, Built p) → Built (sequence ps)
  | concat : ∀ ps, (∀ p ∈ ps, Built p) → Built (concat ps)
  | pmap : ∀ p f, Built p → Built (pmap p f)
  | dropvalue : ∀ p, Built p → Built (dropvalue p)
  | or_ : ∀ ps, (∀ p ∈ ps, Built p) → Built (or_ ps)
  | try_ : ∀ p, Built p → Built (try_ p)
  | errormessage : ∀ msg p, Built p → Built (errormessage msg p)

/-- A suffix that is not the whole list is strictly shorter. -/
lemma suffix_ne_length_lt {r s : Str} (h : r <:+ s) (hne : r ≠ s) :
    r.length < s.length :=
  lt_of_le_of_ne h.length_le (fun hl => hne (h.eq_of_length hl))

lemma suffixP_digit : SuffixP digit := by
  intro s v r h
  cases s with
  | nil => simp [digit] at h
  | cons c rest =>
    simp only [digit] at h
    split at h
    · simp only [Except.ok.injEq, Prod.mk.injEq] at h
      exact h.2 ▸ List.suffix_cons c rest
    · cases h

lemma suffixP_letter : SuffixP letter := by
  intro s v r h
  cases s with
  | nil => simp [letter] at h
  | cons c rest =>
    simp only [letter] at h
    split at h
    · simp only [Except.ok.injEq, Prod.mk.injEq] at h
      exact h.2 ▸ List.suffix_cons c rest
    · cases h

lemma suffixP_space : SuffixP space := by
  intro s v r h
  cases s with
  | nil => simp [space] at h
  | cons c rest =>
    simp only [space] at h
    split at h
    · simp only [Except.ok.injEq, Prod.mk.injEq] at h
      exact h.2 ▸ List.suffix_cons c rest
    · cases h

lemma suffixP_literal (lit : Str) : SuffixP (literal lit) := by
  intro s v r h
  simp only [literal] at h
  split at h
  · simp only [Except.ok.injEq, Prod.mk.injEq] at h
    exact h.2 ▸ List.drop_suffix lit.length s
  · cases h

lemma suffixP_end : SuffixP end_ := by
  intro s v r h
  cases s with
  | nil =>
    simp only [end_, Except.ok.injEq, Prod.mk.injEq] at h
    exact h.2 ▸ List.suffix_rfl
  | cons c rest => simp [end_] at h

lemma suffixP_except (letters : List Char) : SuffixP (except_ letters) := by
  intro s v r h
  cases s with
  | nil => simp [except_] at h
  | cons c rest =>
    simp only [except_] at h
    split at h
    · cases h
    · simp only [Except.ok.injEq, Prod.mk.injEq] at h
      exact h.2 ▸ List.suffix_cons c rest

lemma suffixP_anything : SuffixP anything := suffixP_except []

lemma suffixP_pmap {p : Parser} (f : Val → Val) (hp : SuffixP p) :
    SuffixP (pmap p f) := by
  intro s v r h
  simp only [pmap] at h
  cases he : p s with
  | error e => rw [he] at h; cases h
  | ok vr =>
    rw [he] at h
    simp only [Except.ok.injEq, Prod.mk.injEq] at h
    exact h.2 ▸ hp s vr.1 vr.2 (by rw [he])

lemma suffixP_try {p : Parser} (hp : SuffixP p) : SuffixP (try_ p) := by
  intro s v r h
  simp only [try_] at h
  cases he : p s with
  | error e =>
    rw [he] at h
    simp only [Except.ok.injEq, Prod.mk.injEq] at h
    exact h.2 ▸ List.suffix_rfl
  | ok vr =>
    rw [he] at h
    simp only [Except.ok.injEq] at h
    have : r = vr.2 := by rw [h]
    exact this ▸ hp s vr.1 vr.2 (by rw [he])

lemma suffixP_dropvalue {p : Parser} (hp : SuffixP p) : SuffixP (dropvalue p) :=
  suffixP_pmap _ hp

lemma suffixP_errormessage {p : Parser} (msg : Str) (hp : SuffixP p) :
    SuffixP (errormessage msg p) := by
  intro s v r h
  simp only [errormessage] at h
  cases he : p s with
  | error e => rw [he] at h; cases h
  | ok vr =>
    rw [he] at h
    simp only [Except.ok.injEq] at h
    have : r = vr.2 := by rw [h]
    exact this ▸ hp s vr.1 vr.2 (by rw [he])

lemma orAux_suffix : ∀ (ps : List Parser) (msg s : Str) {v : Val} {r : Str},
    (∀ p ∈ ps, SuffixP p) → orAux ps msg s = .ok (v, r) → r <:+ s := by
  intro ps
  induction ps with
  | nil => intro msg s _ _ _ h; simp [orAux] at h
  | cons p ps ih =>
    intro msg s v r hall h
    simp only [orAux] at h
    cases he : p s with
    | ok vr =>
      rw [he] at h
      simp only [Except.ok.injEq] at h
      have : r = vr.2 := by rw [h]
      exact this ▸ hall p (List.mem_cons_self p ps) s vr.1 vr.2 (by rw [he])
    | error e =>
      rw [he] at h
      exact ih _ s (fun q hq => hall q (List.mem_cons_of_mem p hq)) h

lemma suffixP_or (ps : List Parser) (hall : ∀ p ∈ ps, SuffixP p) :
    SuffixP (or_ ps) := fun s _ _ h => orAux_suffix ps [] s hall h

lemma seqAux_suffix : ∀ (ps : List Parser) (s : Str) {vs : List Val} {r : Str},
    (∀ p ∈ ps, SuffixP p) → seqAux ps s = .ok (vs, r) → r <:+ s := by
  intro ps
  induction ps with
  | nil =>
    intro s vs r _ h
    simp only [seqAux, Except.ok.injEq, Prod.mk.injEq] at h
    exact h.2 ▸ List.suffix_rfl
  | cons p ps ih =>
    intro s vs r hall h
    simp only [seqAux] at h
    cases he : p s with
    | error e => rw [he] at h; cases h
    | ok vr =>
      obtain ⟨v0, r0⟩ := vr
      rw [he] at h
      dsimp only at h
      cases hq : seqAux ps r0 with
      | error e => rw [hq] at h; cases h
      | ok vsr =>
        obtain ⟨vs0, r1⟩ := vsr
        rw [hq] at h
        dsimp only at h
        simp only [Except.ok.injEq, Prod.mk.injEq] at h
        have h1 : r1 <:+ r0 := ih r0 (fun q hq2 => hall q (List.mem_cons_of_mem p hq2)) (by rw [hq])
        have h2 : r0 <:+ s := hall p (List.mem_cons_self p ps) s v0 r0 (by rw [he])
        exact h.2 ▸ h1.trans h2

lemma suffixP_sequence (ps : List Parser) (hall : ∀ p ∈ ps, SuffixP p) :
    SuffixP (sequence ps) := by
  intro s v r h
  simp only [sequence] at h
  cases hq : seqAux ps s with
  | error e => rw [hq] at h; cases h
  | ok vsr =>
    rw [hq] at h
    simp only [Except.ok.injEq, Prod.mk.injEq] at h
    exact h.2 ▸ seqAux_suffix ps s hall (by rw [hq])

lemma suffixP_concat (ps : List Parser) (hall : ∀ p ∈ ps, SuffixP p) :
    SuffixP (concat ps) := by
  intro s v r h
  simp only [concat] at h
  cases hq : seqAux ps s with
  | error e => rw [hq] at h; cases h
  | ok vsr =>
    rw [hq] at h
    simp only [Except.ok.injEq, Prod.mk.injEq] at h
    exact h.2 ▸ seqAux_suffix ps s hall (by rw [hq])

lemma liftP_fsuffix {p : Parser} (hp : SuffixP p) : FSuffixP (liftP p) := by
  intro s v r h
  simp only [liftP, Option.some.injEq] at h
  exact hp s v r h

lemma manyAuxF_suffix {q : Str → Option PResult} (hq : FSuffixP q) :
    ∀ (fuel : Nat) (acc : List Val) (s : Str) {vs : List Val} {r : Str},
    manyAuxF q fuel acc s = some (vs, r) → r <:+ s := by
  intro fuel
  induction fuel with
  | zero => intro acc s vs r h; simp [manyAuxF] at h
  | succ f ih =>
    intro acc s vs r h
    simp only [manyAuxF] at h
    cases he : q s with
    | none => rw [he] at h; cases h
    | some res =>
      rw [he] at h
      cases res with
      | error e =>
        simp only [Option.some.injEq, Prod.mk.injEq] at h
        exact h.2 ▸ List.suffix_rfl
      | ok vr =>
        obtain ⟨v0, r0⟩ := vr
        dsimp only at h
        by_cases hr : r0 = s
        · rw [if_pos hr] at h
          simp only [Option.some.injEq, Prod.mk.injEq] at h
          exact h.2 ▸ List.suffix_rfl
        · rw [if_neg hr] at h
          exact (ih _ r0 h).trans (hq s v0 r0 (by rw [he]))

lemma suffixP_many {p : Parser} (hp : SuffixP p) : SuffixP (many p) := by
  intro s v r h
  simp only [many] at h
  cases hm : manyAuxF (liftP p) (s.length + 1) [] s with
  | none => rw [hm] at h; cases h
  | some vsr =>
    rw [hm] at h
    simp only [Except.ok.injEq, Prod.mk.injEq] at h
    exact h.2 ▸ manyAuxF_suffix (liftP_fsuffix hp) _ [] s (by rw [hm])

lemma suffixP_manyone {p : Parser} (hp : SuffixP p) : SuffixP (manyone p) := by
  intro s v r h
  simp only [manyone] at h
  cases he : p s with
  | error e => rw [he] at h; cases h
  | ok vr =>
    obtain ⟨v0, r0⟩ := vr
    rw [he] at h
    dsimp only at h
    cases hm : many p r0 with
    | error e => rw [hm] at h; cases h
    | ok wr =>
      obtain ⟨w0, r2⟩ := wr
      rw [hm] at h
      dsimp only at h
      simp only [Except.ok.injEq, Prod.mk.injEq] at h
      have h1 : r2 <:+ r0 := suffixP_many hp r0 w0 r2 (by rw [hm])
      have h2 : r0 <:+ s := hp s v0 r0 (by rw [he])
      exact h.2 ▸ h1.trans h2

lemma suffixP_number : SuffixP number := by
  apply suffixP_errormessage
  apply suffixP_pmap
  apply suffixP_sequence
  intro p hp
  simp only [List.mem_cons, List.mem_singleton, List.not_mem_nil, or_false] at hp
  rcases hp with h1 | h1 | h1 | h1 <;> subst h1
  · exact suffixP_try (suffixP_literal _)
  · exact suffixP_dropvalue (suffixP_many suffixP_space)
  · exact suffixP_manyone suffixP_digit
  · apply suffixP_try
    apply suffixP_sequence
    intro p hp
    simp only [List.mem_cons, List.mem_singleton, List.not_mem_nil, or_false] at hp
    rcases hp with h2 | h2 <;> subst h2
    · exact suffixP_literal _
    · exact suffixP_manyone suffixP_digit

lemma suffixP_variable : SuffixP variable_ := by
  apply suffixP_errormessage
  apply suffixP_pmap
  apply suffixP_sequence
  intro p hp
  simp only [List.mem_cons, List.mem_singleton, List.not_mem_nil, or_false] at hp
  rcases hp with h1 | h1 <;> subst h1
  · exact suffixP_letter
  · apply suffixP_many
    apply suffixP_or
    intro p hp
    simp only [List.mem_cons, List.mem_singleton, List.not_mem_nil, or_false] at hp
    rcases hp with h2 | h2 | h2 <;> subst h2
    · exact suffixP_letter
    · exact suffixP_digit
    · exact suffixP_literal _

lemma suffixP_spaces : SuffixP spaces := suffixP_many suffixP_space

lemma suffixP_prefx_operations : ∀ p ∈ prefx_operations, SuffixP p := by
  intro p hp
  simp only [prefx_operations, List.mem_cons, List.mem_singleton, List.not_mem_nil, or_false] at hp
  rcases hp with h1 | h1 | h1 <;> subst h1 <;> exact suffixP_pmap _ (suffixP_literal _)

lemma suffixP_infx_literals : ∀ p ∈ infx_operations.map (fun kv => literal kv.1), SuffixP p := by
  intro p hp
  simp only [infx_operations, List.map_cons, List.map_nil, List.mem_cons, List.mem_singleton,
    List.not_mem_nil, or_false] at hp
  rcases hp with h1 | h1 | h1 | h1 | h1 <;> subst h1 <;> exact suffixP_literal _

lemma orAuxF_suffix : ∀ (qs : List (Str → Option PResult)) (msg s : Str) {v : Val} {r : Str},
    (∀ q ∈ qs, FSuffixP q) → orAuxF qs msg s = some (.ok (v, r)) → r <:+ s := by
  intro qs
  induction qs with
  | nil => intro msg s v r _ h; simp [orAuxF] at h
  | cons q qs ih =>
    intro msg s v r hall h
    simp only [orAuxF] at h
    cases he : q s with
    | none => rw [he] at h; cases h
    | some res =>
      rw [he] at h
      cases res with
      | ok vr =>
        simp only [Option.some.injEq, Except.ok.injEq] at h
        have : r = vr.2 := by rw [h]
        exact this ▸ hall q (List.mem_cons_self q qs) s vr.1 vr.2 (by rw [he])
      | error e =>
        exact ih _ s (fun q2 hq2 => hall q2 (List.mem_cons_of_mem q hq2)) h

/-- Whenever any of the mutually recursive grammar functions succeeds,
the remainder it returns is a suffix of its input. -/
lemma run_suffix : ∀ (f : Nat) (c : Call) (s : Str) {v : Val} {r : Str},
    run f c s = some (.ok (v, r)) → r <:+ s := by
  intro f
  induction f with
  | zero => intro c s v r h; simp [run] at h
  | succ f ih =>
    intro c s v r h
    cases c with
    | expr prec =>
      simp only [run] at h
      cases h1 : spaces s with
      | error e => rw [h1] at h; simp at h
      | ok sp1 =>
        obtain ⟨w1, s1⟩ := sp1
        rw [h1] at h
        dsimp only at h
        cases h2 : orF [liftP number, run f Call.prefx, run f Call.wrapped, liftP variable_] s1 with
        | none => rw [h2] at h; cases h
        | some res =>
          rw [h2] at h
          cases res with
          | error e => simp at h
          | ok er =>
            obtain ⟨exp, s2⟩ := er
            dsimp only at h
            have hmem : ∀ q ∈ [liftP number, run f Call.prefx, run f Call.wrapped,
                liftP variable_], FSuffixP q := by
              intro q hq
              simp only [List.mem_cons, List.mem_singleton, List.not_mem_nil, or_false] at hq
              rcases hq with h3 | h3 | h3 | h3 <;> subst h3
              · exact liftP_fsuffix suffixP_number
              · exact fun s v r hh => ih Call.prefx s hh
              · exact fun s v r hh => ih Call.wrapped s hh
              · exact liftP_fsuffix suffixP_variable
            have hs2 : s2 <:+ s1 := orAuxF_suffix _ [] s1 hmem h2
            cases h3 : spaces s2 with
            | error e => rw [h3] at h; simp at h
            | ok sp3 =>
              obtain ⟨w3, s3⟩ := sp3
              rw [h3] at h
              dsimp only at h
              cases h4 : manyAuxF (run f (Call.infx prec)) (s3.length + 1) [] s3 with
              | none => rw [h4] at h; cases h
              | some ir =>
                obtain ⟨infixes, s4⟩ := ir
                rw [h4] at h
                dsimp only at h
                have hs4 : s4 <:+ s3 :=
                  manyAuxF_suffix (fun s v r hh => ih (Call.infx prec) s hh) _ [] s3 h4
                cases h5 : spaces s4 with
                | error e => rw [h5] at h; simp at h
                | ok sp5 =>
                  obtain ⟨w5, s5⟩ := sp5
                  rw [h5] at h
                  dsimp only at h
                  simp only [Option.some.injEq, Except.ok.injEq, Prod.mk.injEq] at h
                  have hs1 : s1 <:+ s := suffixP_spaces s w1 s1 (by rw [h1])
                  have hs3 : s3 <:+ s2 := suffixP_spaces s2 w3 s3 (by rw [h3])
                  have hs5 : s5 <:+ s4 := suffixP_spaces s4 w5 s5 (by rw [h5])
                  exact h.2 ▸ (hs5.trans (hs4.trans (hs3.trans (hs2.trans hs1))))
    | prefx =>
      simp only [run] at h
      cases h1 : or_ prefx_operations s with
      | error e => rw [h1] at h; simp at h
      | ok op1 =>
        obtain ⟨opv, s1⟩ := op1
        rw [h1] at h
        dsimp only at h
        cases h2 : spaces s1 with
        | error e => rw [h2] at h; simp at h
        | ok sp2 =>
          obtain ⟨w2, s2⟩ := sp2
          rw [h2] at h
          dsimp only at h
          cases h3 : orF [run f Call.wrapped, liftP number, run f Call.prefx,
              liftP variable_] s2 with
          | none => rw [h3] at h; cases h
          | some res =>
            rw [h3] at h
            cases res with
            | error e => simp at h
            | ok ar =>
              obtain ⟨arg, s3⟩ := ar
              dsimp only at h
              simp only [Option.some.injEq, Except.ok.injEq, Prod.mk.injEq] at h
              have hmem : ∀ q ∈ [run f Call.wrapped, liftP number, run f Call.prefx,
                  liftP variable_], FSuffixP q := by
                intro q hq
                simp only [List.mem_cons, List.mem_singleton, List.not_mem_nil, or_false] at hq
                rcases hq with h4 | h4 | h4 | h4 <;> subst h4
                · exact fun s v r hh => ih Call.wrapped s hh
                · exact liftP_fsuffix suffixP_number
                · exact fun s v r hh => ih Call.prefx s hh
                · exact liftP_fsuffix suffixP_variable
              have hs3 : s3 <:+ s2 := orAuxF_suffix _ [] s2 hmem h3
              have hs1 : s1 <:+ s := suffixP_or _ suffixP_prefx_operations s opv s1 (by rw [h1])
              have hs2 : s2 <:+ s1 := suffixP_spaces s1 w2 s2 (by rw [h2])
              exact h.2 ▸ (hs3.trans (hs2.trans hs1))
    | wrapped =>
      simp only [run] at h
      cases h1 : literal ['('] s with
      | error e => rw [h1] at h; simp at h
      | ok op1 =>
        obtain ⟨w1, s1⟩ := op1
        rw [h1] at h
        dsimp only at h
        cases h2 : run f Call.full s1 with
        | none => rw [h2] at h; cases h
        | some res =>
          rw [h2] at h
          cases res with
          | error e => simp at h
          | ok ir =>
            obtain ⟨inner, s2⟩ := ir
            dsimp only at h
            cases h3 : literal [')'] s2 with
            | error e => rw [h3] at h; simp at h
            | ok cr =>
              obtain ⟨w3, s3⟩ := cr
              rw [h3] at h
              dsimp only at h
              simp only [Option.some.injEq, Except.ok.injEq, Prod.mk.injEq] at h
              have hs1 : s1 <:+ s := suffixP_literal _ s w1 s1 (by rw [h1])
              have hs2 : s2 <:+ s1 := ih Call.full s1 (by rw [h2])
              have hs3 : s3 <:+ s2 := suffixP_literal _ s2 w3 s3 (by rw [h3])
              exact h.2 ▸ (hs3.trans (hs2.trans hs1))
    | infx prec =>
      simp only [run] at h
      cases h1 : or_ (infx_operations.map (fun kv => literal kv.1)) s with
      | error e => rw [h1] at h; simp at h
      | ok op1 =>
        obtain ⟨opv, s1⟩ := op1
        rw [h1] at h
        dsimp only at h
        by_cases hpr : lookupPrec (strOf opv) < prec
        · rw [if_pos hpr] at h; simp at h
        · rw [if_neg hpr] at h
          cases h2 : run f (Call.expr (lookupPrec (strOf opv))) s1 with
          | none => rw [h2] at h; cases h
          | some res =>
            rw [h2] at h
            cases res with
            | error e => simp at h
            | ok er =>
              obtain ⟨exp, s2⟩ := er
              dsimp only at h
              simp only [Option.some.injEq, Except.ok.injEq, Prod.mk.injEq] at h
              have hs1 : s1 <:+ s :=
                suffixP_or _ suffixP_infx_literals s opv s1 (by rw [h1])
              have hs2 : s2 <:+ s1 := ih _ s1 (by rw [h2])
              exact h.2 ▸ (hs2.trans hs1)
    | full =>
      simp only [run] at h
      exact ih _ s h

/-! ### Termination: linear fuel suffices for the recursive grammar -/

lemma isPrefixOf_length_le : ∀ (l s : Str), l.isPrefixOf s = true → l.length ≤ s.length := by
  intro l
  induction l with
  | nil => intro s _; simp
  | cons a l ih =>
    intro s h
    cases s with
    | nil => simp [List.isPrefixOf] at h
    | cons b s2 =>
      simp only [List.isPrefixOf, Bool.and_eq_true] at h
      simpa using ih s2 h.2

lemma strict_literal (lit : Str) (hne : lit ≠ []) : StrictP (literal lit) := by
  intro s v r h
  simp only [literal] at h
  split at h
  · simp only [Except.ok.injEq, Prod.mk.injEq] at h
    have hle : lit.length ≤ s.length := isPrefixOf_length_le lit s (by assumption)
    have hpos : 0 < lit.length := List.length_pos.mpr hne
    have : r.length = s.length - lit.length := by rw [← h.2]; exact List.length_drop _ _
    omega
  · cases h

lemma strict_pmap {p : Parser} (f : Val → Val) (hp : StrictP p) : StrictP (pmap p f) := by
  intro s v r h
  simp only [pmap] at h
  cases he : p s with
  | error e => rw [he] at h; cases h
  | ok vr =>
    rw [he] at h
    simp only [Except.ok.injEq, Prod.mk.injEq] at h
    exact h.2 ▸ hp s vr.1 vr.2 (by rw [he])

lemma orAux_strict : ∀ (ps : List Parser) (msg s : Str) {v : Val} {r : Str},
    (∀ p ∈ ps, StrictP p) → orAux ps msg s = .ok (v, r) → r.length < s.length := by
  intro ps
  induction ps with
  | nil => intro msg s _ _ _ h; simp [orAux] at h
  | cons p ps ih =>
    intro msg s v r hall h
    simp only [orAux] at h
    cases he : p s with
    | ok vr =>
      rw [he] at h
      simp only [Except.ok.injEq] at h
      have : r = vr.2 := by rw [h]
      exact this ▸ hall p (List.mem_cons_self p ps) s vr.1 vr.2 (by rw [he])
    | error e =>
      rw [he] at h
      exact ih _ s (fun q hq => hall q (List.mem_cons_of_mem p hq)) h

lemma strict_prefx_operations : ∀ p ∈ prefx_operations, StrictP p := by
  intro p hp
  simp only [prefx_operations, List.mem_cons, List.mem_singleton, List.not_mem_nil, or_false] at hp
  rcases hp with h1 | h1 | h1 <;> subst h1 <;>
    exact strict_pmap _ (strict_literal _ (by simp))

lemma strict_infx_literals : ∀ p ∈ infx_operations.map (fun kv => literal kv.1), StrictP p := by
  intro p hp
  simp only [infx_operations, List.map_cons, List.map_nil, List.mem_cons, List.mem_singleton,
    List.not_mem_nil, or_false] at hp
  rcases hp with h1 | h1 | h1 | h1 | h1 <;> subst h1 <;>
    exact strict_literal _ (by simp)

lemma orAuxF_some : ∀ (qs : List (Str → Option PResult)) (msg s : Str),
    (∀ q ∈ qs, ∃ res, q s = some res) → ∃ res, orAuxF qs msg s = some res := by
  intro qs
  induction qs with
  | nil => intro msg s _; exact ⟨_, rfl⟩
  | cons q qs ih =>
    intro msg s hall
    simp only [orAuxF]
    obtain ⟨res, hres⟩ := hall q (List.mem_cons_self q qs)
    rw [hres]
    cases res with
    | ok vr => exact ⟨_, rfl⟩
    | error e => exact ih _ s (fun q2 hq2 => hall q2 (List.mem_cons_of_mem q hq2))

lemma manyAuxF_some {q : Str → Option PResult} (s0 : Str)
    (hq : ∀ r, r <:+ s0 → ∃ res, q r = some res) (hsuf : FSuffixP q) :
    ∀ (fuel : Nat) (acc : List Val) (s : Str), s <:+ s0 → s.length < fuel →
    ∃ out, manyAuxF q fuel acc s = some out := by
  intro fuel
  induction fuel with
  | zero => intro acc s _ hl; omega
  | succ f ih =>
    intro acc s hsub hl
    simp only [manyAuxF]
    obtain ⟨res, hres⟩ := hq s hsub
    rw [hres]
    cases res with
    | error e => exact ⟨_, rfl⟩
    | ok vr =>
      obtain ⟨v0, r0⟩ := vr
      dsimp only
      by_cases hr : r0 = s
      · rw [if_pos hr]; exact ⟨_, rfl⟩
      · rw [if_neg hr]
        have hsufr : r0 <:+ s := hsuf s v0 r0 (by rw [hres])
        have hlen : r0.length < s.length := suffix_ne_length_lt hsufr hr
        exact ih _ r0 (hsufr.trans hsub) (by omega)

lemma many_ok {p : Parser} (hp : SuffixP p) (s : Str) :
    ∃ vs r, many p s = .ok (.vlist vs, r) := by
  have hsome : ∃ out, manyAuxF (liftP p) (s.length + 1) [] s = some out := by
    apply manyAuxF_some s (fun r _ => ⟨p r, rfl⟩) (liftP_fsuffix hp) _ _ s List.suffix_rfl
    omega
  obtain ⟨⟨vs, r⟩, hout⟩ := hsome
  exact ⟨vs, r, by simp [many, hout]⟩

lemma spaces_ok (s : Str) : ∃ vs r, spaces s = .ok (.vlist vs, r) :=
  many_ok suffixP_space s

/-- Fuel adequacy: every grammar function returns a result (success or
`ParseError`) whenever its fuel exceeds `4 * length + weight`; together
with `run_suffix` this is the termination argument for the grammar. -/
lemma run_some : ∀ (f : Nat) (c : Call) (s : Str), 4 * s.length + callWeight c < f →
    ∃ res, run f c s = some res := by
  intro f
  induction f with
  | zero => intro c s hlt; omega
  | succ f ih =>
    intro c s hlt
    cases c with
    | expr prec =>
      simp only [callWeight] at hlt
      simp only [run]
      obtain ⟨vs1, s1, h1⟩ := spaces_ok s
      rw [h1]
      dsimp only
      have hl1 : s1.length ≤ s.length := (suffixP_spaces s _ s1 h1).length_le
      have horf : ∃ res, orF [liftP number, run f Call.prefx, run f Call.wrapped,
          liftP variable_] s1 = some res := by
        apply orAuxF_some
        intro q hq
        simp only [List.mem_cons, List.mem_singleton, List.not_mem_nil, or_false] at hq
        rcases hq with h2 | h2 | h2 | h2 <;> subst h2
        · exact ⟨_, rfl⟩
        · exact ih Call.prefx s1 (by simp only [callWeight]; omega)
        · exact ih Call.wrapped s1 (by simp only [callWeight]; omega)
        · exact ⟨_, rfl⟩
      obtain ⟨res2, h2⟩ := horf
      rw [h2]
      cases res2 with
      | error e => exact ⟨_, rfl⟩
      | ok er =>
        obtain ⟨exp, s2⟩ := er
        dsimp only
        have hmem : ∀ q ∈ [liftP number, run f Call.prefx, run f Call.wrapped,
            liftP variable_], FSuffixP q := by
          intro q hq
          simp only [List.mem_cons, List.mem_singleton, List.not_mem_nil, or_false] at hq
          rcases hq with h3 | h3 | h3 | h3 <;> subst h3
          · exact liftP_fsuffix suffixP_number
          · exact fun s v r hh => run_suffix f Call.prefx s hh
          · exact fun s v r hh => run_suffix f Call.wrapped s hh
          · exact liftP_fsuffix suffixP_variable
        have hl2 : s2.length ≤ s1.length := (orAuxF_suffix _ [] s1 hmem h2).length_le
        obtain ⟨vs3, s3, h3⟩ := spaces_ok s2
        rw [h3]
        dsimp only
        have hl3 : s3.length ≤ s2.length := (suffixP_spaces s2 _ s3 h3).length_le
        have hmany : ∃ out, manyAuxF (run f (Call.infx prec)) (s3.length + 1) [] s3
            = some out := by
          apply manyAuxF_some s3 _ (fun s v r hh => run_suffix f (Call.infx prec) s hh)
            _ _ s3 List.suffix_rfl (by omega)
          intro r hr
          have hlr : r.length ≤ s3.length := hr.length_le
          exact ih (Call.infx prec) r (by simp only [callWeight]; omega)
        obtain ⟨⟨infixes, s4⟩, h4⟩ := hmany
        rw [h4]
        dsimp only
        obtain ⟨vs5, s5, h5⟩ := spaces_ok s4
        rw [h5]
        exact ⟨_, rfl⟩
    | prefx =>
      simp only [callWeight] at hlt
      simp only [run]
      cases h1 : or_ prefx_operations s with
      | error e => exact ⟨_, rfl⟩
      | ok op1 =>
        obtain ⟨opv, s1⟩ := op1
        dsimp only
        have hl1 : s1.length < s.length := orAux_strict _ [] s strict_prefx_operations h1
        obtain ⟨vs2, s2, h2⟩ := spaces_ok s1
        rw [h2]
        dsimp only
        have hl2 : s2.length ≤ s1.length := (suffixP_spaces s1 _ s2 h2).length_le
        have horf : ∃ res, orF [run f Call.wrapped, liftP number, run f Call.prefx,
            liftP variable_] s2 = some res := by
          apply orAuxF_some
          intro q hq
          simp only [List.mem_cons, List.mem_singleton, List.not_mem_nil, or_false] at hq
          rcases hq with h3 | h3 | h3 | h3 <;> subst h3
          · exact ih Call.wrapped s2 (by simp only [callWeight]; omega)
          · exact ⟨_, rfl⟩
          · exact ih Call.prefx s2 (by simp only [callWeight]; omega)
          · exact ⟨_, rfl⟩
        obtain ⟨res3, h3⟩ := horf
        rw [h3]
        cases res3 with
        | error e => exact ⟨_, rfl⟩
        | ok ar => obtain ⟨arg, s3⟩ := ar; exact ⟨_, rfl⟩
    | wrapped =>
      simp only [callWeight] at hlt
      simp only [run]
      cases h1 : literal ['('] s with
      | error e => exact ⟨_, rfl⟩
      | ok op1 =>
        obtain ⟨w1, s1⟩ := op1
        dsimp only
        have hl1 : s1.length < s.length := strict_literal ['('] (by simp) s w1 s1 h1
        obtain ⟨res2, h2⟩ := ih Call.full s1 (by simp only [callWeight]; omega)
        rw [h2]
        cases res2 with
        | error e => exact ⟨_, rfl⟩
        | ok ir =>
          obtain ⟨inner, s2⟩ := ir
          dsimp only
          cases h3 : literal [')'] s2 with
          | error e => exact ⟨_, rfl⟩
          | ok cr => obtain ⟨w3, s3⟩ := cr; exact ⟨_, rfl⟩
    | infx prec =>
      simp only [callWeight] at hlt
      simp only [run]
      cases h1 : or_ (infx_operations.map (fun kv => literal kv.1)) s with
      | error e => exact ⟨_, rfl⟩
      | ok op1 =>
        obtain ⟨opv, s1⟩ := op1
        dsimp only
        have hl1 : s1.length < s.length := orAux_strict _ [] s strict_infx_literals h1
        by_cases hpr : lookupPrec (strOf opv) < prec
        · rw [if_pos hpr]; exact ⟨_, rfl⟩
        · rw [if_neg hpr]
          obtain ⟨res2, h2⟩ := ih (Call.expr (lookupPrec (strOf opv))) s1
            (by simp only [callWeight]; omega)
          rw [h2]
          cases res2 with
          | error e => exact ⟨_, rfl⟩
          | ok er => obtain ⟨exp, s2⟩ := er; exact ⟨_, rfl⟩
    | full =>
      simp only [callWeight] at hlt
      simp only [run]
      exact ih (Call.expr minprecedence) s (by simp only [callWeight]; omega)

/-! ### Behaviour of `or_` and `many` (claims C6, C7) -/

lemma orAux_ok_of_ok : ∀ (ps : List Parser) (msg msg2 s : Str) {vr : Val × Str},
    orAux ps msg s = .ok vr → orAux ps msg2 s = .ok vr := by
  intro ps
  induction ps with
  | nil => intro msg msg2 s vr h; simp [orAux] at h
  | cons p ps ih =>
    intro msg msg2 s vr h
    simp only [orAux] at h ⊢
    cases he : p s with
    | ok vr2 =>
      rw [he] at h
      dsimp only at h ⊢
      exact h
    | error e =>
      rw [he] at h
      dsimp only at h ⊢
      exact ih _ _ s h

lemma orAux_all_fail : ∀ (ps : List Parser) (msg s : Str),
    (∀ p ∈ ps, ∃ e, p s = .error e) →
    orAux ps msg s =
      .error ((msg ++ ((ps.map (fun p => errOf (p s))).map (fun m => m ++ ['\n'])).flatten).dropLast) := by
  intro ps
  induction ps with
  | nil => intro msg s _; simp [orAux]
  | cons p ps ih =>
    intro msg s hall
    obtain ⟨e, he⟩ := hall p (List.mem_cons_self p ps)
    simp only [orAux]
    rw [he]
    dsimp only
    rw [ih (msg ++ e ++ ['\n']) s (fun q hq => hall q (List.mem_cons_of_mem p hq))]
    simp [errOf, he, List.append_assoc]

lemma join_newline_dropLast : ∀ (msgs : List Str),
    ((msgs.map (fun m => m ++ ['\n'])).flatten).dropLast = newlineJoin msgs := by
  intro msgs
  induction msgs with
  | nil => simp [newlineJoin]
  | cons m rest ih =>
    cases rest with
    | nil => simp [newlineJoin, List.dropLast_concat]
    | cons m2 rest2 =>
      have hne : (((m2 :: rest2).map (fun m => m ++ ['\n'])).flatten) ≠ [] := by
        simp
      rw [List.map_cons, List.flatten_cons, List.dropLast_append_of_ne_nil _ hne, ih]
      simp [newlineJoin, List.append_assoc]

lemma many_stop_zero {p : Parser} {s : Str} {v : Val} (h : p s = .ok (v, s)) :
    many p s = .ok (.vlist [], s) := by
  simp only [many, manyAuxF, liftP, h]
  simp

lemma many_stop_error {p : Parser} {s e : Str} (h : p s = .error e) :
    many p s = .ok (.vlist [], s) := by
  simp only [many, manyAuxF, liftP, h]

/-! ### Theorems for the claims -/

/-- C1: when the grammar parses the right-hand side of an infix operator,
an encountered infix operator that binds less tightly than the enclosing
operator is not consumed at that grammar position: for *every* operator
`op` of the table and *every* enclosing precedence `prec`, whenever
`op`'s table rank is lower than `prec`, `infix_expression(prec)` fails
on input beginning with `op` without consuming it, for every following
input and fuel; consequently `"2 ^ 3 + 4"` parses as `(2 ^ 3) + 4` —
the `+` is not absorbed into the right operand of `^`. -/
theorem lower_prec_op_not_consumed :
    (∀ (f prec : Nat) (op : Str) (p0 : Nat) (s : Str),
      (op, p0) ∈ infx_operations → p0 < prec →
      run (f + 1) (Call.infx prec) (op ++ s) = some (.error [])) ∧
    parse_expression "2 ^ 3 + 4".toList =
      .ok (.vlist [.vop "+".toList, .vlist [.vop "^".toList, .vnum 2, .vnum 3], .vnum 4]) := by
  constructor
  · intro f prec op p0 s hmem hlt
    simp only [infx_operations, List.mem_cons, List.mem_singleton, List.not_mem_nil, or_false,
      Prod.mk.injEq] at hmem
    rcases hmem with ⟨h1, h2⟩ | ⟨h1, h2⟩ | ⟨h1, h2⟩ | ⟨h1, h2⟩ | ⟨h1, h2⟩ <;>
      subst h1 <;> subst h2 <;>
      simp [run, or_, orAux, infx_operations, literal, List.isPrefixOf, strOf,
        literalMsg, hlt,
        show lookupPrec ['+'] = 1 from by decide,
        show lookupPrec ['*'] = 2 from by decide,
        show lookupPrec ['-'] = 1 from by decide,
        show lookupPrec ['/'] = 2 from by decide,
        show lookupPrec ['^'] = 3 from by decide]
  · decide

/-- C1 witness: `+` (rank 1) encountered while parsing at enclosing
precedence 2 (that of `*` and `/`) is rejected without being
consumed. -/
theorem lower_prec_op_not_consumed_witness :
    run 1 (Call.infx 2) "+7".toList = some (.error []) :=
  lower_prec_op_not_consumed.1 0 2 "+".toList 1 "7".toList (by decide) (by decide)

/-- C2 counterexample: the Expression parser does not attempt exactly
one infix operator with a full-Expression right-hand side.  On
`"1 * 2 + 3"` it consumes two infix continuations at the same level and
produces `(1 * 2) + 3`, whereas one infix continuation with a full
Expression right-hand side would produce `1 * (2 + 3)`. -/
theorem two_infx_continuations_counterexample :
    parse_expression "1 * 2 + 3".toList =
      .ok (.vlist [.vop "+".toList, .vlist [.vop "*".toList, .vnum 1, .vnum 2], .vnum 3]) ∧
    parse_expression "1 * 2 + 3".toList ≠
      .ok (.vlist [.vop "*".toList, .vnum 1, .vlist [.vop "+".toList, .vnum 2, .vnum 3]]) := by
  constructor
  · decide
  · decide

/-- C2 amended: after parsing a left operand, the Expression parser
attempts a `many`-repetition of infix continuations (possibly several at
the same level), each operator's right-hand side is parsed as an
expression restricted to operators of precedence at least the
operator's own, and the continuations are folded left-to-right onto the
left operand.  Demonstrated on `"1 * 2 + 3"`: the right-hand side of
`*` (parsed at precedence 2) stops before `+`, the repetition collects
the two continuations `[* 2]` and `[+ 3]`, and the fold yields
`(1 * 2) + 3`. -/
theorem expression_many_infx_amended :
    run 24 (Call.expr 2) " 2 + 3".toList = some (.ok (.vnum 2, "+ 3".toList)) ∧
    manyAuxF (run 20 (Call.infx 1)) 8 [] "* 2 + 3".toList =
      some ([.vlist [.vop "*".toList, .vnum 2], .vlist [.vop "+".toList, .vnum 3]], []) ∧
    parse_expression "1 * 2 + 3".toList =
      .ok (.vlist [.vop "+".toList, .vlist [.vop "*".toList, .vnum 1, .vnum 2], .vnum 3]) := by
  refine ⟨by decide, by decide, by decide⟩

/-- C3: chained infix operators of the same precedence produce a
right-leaning tree: `parse_expression("8 - 3 - 1")` yields
`[Operation("-"), 8.0, [Operation("-"), 3.0, 1.0]]`, i.e.
`8 - (3 - 1)`. -/
theorem chained_same_precedence_right_leaning :
    parse_expression "8 - 3 - 1".toList =
      .ok (.vlist [.vop "-".toList, .vnum 8, .vlist [.vop "-".toList, .vnum 3, .vnum 1]]) := by
  decide

/-- C4 counterexample: the operator table does not assign `^`:1 / `+`:3
with lower rank binding tighter; in the code `^` has rank 3 and `+` has
rank 1. -/
theorem operator_table_counterexample :
    lookupPrec "^".toList = 3 ∧ lookupPrec "+".toList = 1 ∧ (3 : Nat) ≠ 1 := by
  decide

/-- C4 amended: the infix operator table assigns numeric precedence
ranks `+`:1, `*`:2, `-`:1, `/`:2, `^`:3, where a *higher* rank means
tighter binding (the gate rejects operators of rank lower than the
enclosing context), so `^` still binds tightest:
`"1+2^3"` parses as `1 + (2 ^ 3)`. -/
theorem operator_table_amended :
    lookupPrec "+".toList = 1 ∧ lookupPrec "*".toList = 2 ∧ lookupPrec "-".toList = 1 ∧
    lookupPrec "/".toList = 2 ∧ lookupPrec "^".toList = 3 ∧ minprecedence = 1 ∧
    parse_expression "1+2^3".toList =
      .ok (.vlist [.vop "+".toList, .vnum 1, .vlist [.vop "^".toList, .vnum 2, .vnum 3]]) := by
  refine ⟨by decide, by decide, by decide, by decide, by decide, by decide, by decide⟩

/-- C5 counterexample: the Expression parser's alternation does not try
the Prefix alternative first: on `"-3"` the prefix parse succeeds (and
would yield `[negate, 3.0]`), yet the expression parse yields the bare
number `-3.0`, so the prefix alternative did not win. -/
theorem alternation_order_counterexample :
    parse_expression "-3".toList = .ok (.vnum (-3)) ∧
    run 12 Call.prefx "-3".toList =
      some (.ok (.vlist [.vop "negate".toList, .vnum 3], [])) ∧
    parse_expression "-3".toList ≠ .ok (.vlist [.vop "negate".toList, .vnum 3]) := by
  refine ⟨by decide, by decide, by decide⟩

/-- C5 amended: the Expression parser's ordered alternation is Number,
Prefix, Wrapped, Variable — so for `"-3"` the *number* alternative wins
(the number parser itself consumes an optional leading dash), while the
prefix alternative is still tried before the variable alternative, so
`"sinx"` parses as `sin` applied to `x` rather than as the variable
`sinx`. -/
theorem alternation_order_amended :
    parse_expression "-3".toList = .ok (.vnum (-3)) ∧
    parse_expression "sinx".toList =
      .ok (.vlist [.vop "sin".toList, .vvar "x".toList]) ∧
    parse_expression "sinx".toList ≠ .ok (.vvar "sinx".toList) := by
  refine ⟨by decide, by decide, by decide⟩

/-- C6 counterexample: an iteration in which the sub-parser succeeds
while consuming zero input is *not* a fatal repetition failure with
message `"no input is being consumed"`: `try_(digit)` succeeds on
`"abc"` without consuming, yet `many(try_(digit))` succeeds with an
empty result list (the internally raised error is caught by the loop
itself). -/
theorem many_zero_consumption_counterexample :
    try_ digit "abc".toList = .ok (.vnone, "abc".toList) ∧
    many (try_ digit) "abc".toList = .ok (.vlist [], "abc".toList) ∧
    many (try_ digit) "abc".toList ≠ .error "no input is being consumed".toList := by
  refine ⟨by decide, by decide, by decide⟩

/-- C6 amended: for every parser `p` that returns only suffixes of its
input and every input `s`, `many(p)(s)` never fails — it returns the
list of successful results together with the remaining input (a suffix
of `s`); an iteration in which `p` succeeds while consuming zero input
ends the repetition silently (the `"no input is being consumed"` error
is raised inside the loop's own `try` and immediately caught), exactly
like an iteration in which `p` fails; in particular, when `p` fails
immediately, `many(p)(s)` returns the empty list and `s` unchanged. -/
theorem many_spec_amended (p : Parser) (hp : SuffixP p) (s : Str) :
    (∃ vs r, many p s = .ok (.vlist vs, r) ∧ r <:+ s) ∧
    (∀ v, p s = .ok (v, s) → many p s = .ok (.vlist [], s)) ∧
    (∀ e, p s = .error e → many p s = .ok (.vlist [], s)) := by
  refine ⟨?_, fun v h => many_stop_zero h, fun e h => many_stop_error h⟩
  obtain ⟨vs, r, h⟩ := many_ok hp s
  exact ⟨vs, r, h, suffixP_many hp s _ r h⟩

/-- C6 witness: `many(digit)` on `"xy"`, where `digit` fails at once,
returns the empty list and the input unchanged. -/
theorem many_spec_amended_witness :
    many digit "xy".toList = .ok (.vlist [], "xy".toList) :=
  (many_spec_amended digit suffixP_digit "xy".toList).2.2 "not a digit".toList (by decide)

/-- C7 counterexample: the composite failure message of `or_` is not
the newline-joined concatenation of the *non-empty* failure messages:
with a first alternative failing with the empty message (`or_()` of no
parsers) and `digit` failing with `"not a digit"`, the composite is
`"\nnot a digit"` (the empty message is joined too), not
`"not a digit"`. -/
theorem or_composite_message_counterexample :
    or_ [] ("x".toList : Str) = .error [] ∧
    or_ [or_ [], digit] "x".toList = .error ('\n' :: "not a digit".toList) ∧
    ('\n' :: "not a digit".toList) ≠ "not a digit".toList := by
  refine ⟨by decide, by decide, by decide⟩

/-- C7 amended: `or_(p1..pn)` tries each alternative in order on the
*original* input `s` (never on residue from a failed prior alternative)
and returns the first success; if all alternatives fail, it fails with
the newline-joined concatenation of *all* the failure messages, in
order, empty messages included. -/
theorem or_spec_amended (ps : List Parser) (s : Str) :
    (∀ p rest, ps = p :: rest →
      (∀ vr, p s = .ok vr → or_ ps s = .ok vr) ∧
      (∀ e vr, p s = .error e → or_ rest s = .ok vr → or_ ps s = .ok vr)) ∧
    ((∀ p ∈ ps, ∃ e, p s = .error e) →
      or_ ps s = .error (newlineJoin (ps.map (fun p => errOf (p s))))) := by
  constructor
  · intro p rest hps
    subst hps
    constructor
    · intro vr h
      simp only [or_, orAux]
      rw [h]
    · intro e vr h hrest
      simp only [or_, orAux]
      rw [h]
      exact orAux_ok_of_ok rest [] _ s hrest
  · intro hall
    simp only [or_]
    rw [orAux_all_fail ps [] s hall]
    rw [List.nil_append, join_newline_dropLast]

/-- C7 witness: `or_` with the single alternative `digit` returns
`digit`'s success on `"5x"`. -/
theorem or_spec_amended_witness :
    or_ [digit] "5x".toList = .ok (.vstr ['5'], "x".toList) :=
  ((or_spec_amended [digit] "5x".toList).1 digit [] rfl).1 (.vstr ['5'], "x".toList) (by decide)

/-- C8: `runparser` with `ignore_remainder` left false fails whenever
the parser succeeds but leaves a non-empty remainder, with a message
naming the parser and quoting the unconsumed remainder, and otherwise
returns the parser's success value; in particular
`parse_expression("3 4")` fails with the unconsumed `"4"` quoted. -/
theorem runparser_remainder_spec :
    (∀ (name : Str) (p : Parser) (s : Str) (v : Val) (r : Str), p s = .ok (v, r) →
      (r ≠ [] → runparser name p s false = .error (runparserMsg name r)) ∧
      (r = [] → runparser name p s false = .ok v)) ∧
    parse_expression "3 4".toList = .error (runparserMsg "full_expression".toList ['4']) := by
  constructor
  · intro name p s v r h
    constructor
    · intro hne
      simp [runparser, h, hne]
    · intro hr
      subst hr
      simp [runparser, h]
  · decide

/-- C8 witness: `digit` on `"5x"` succeeds leaving `"x"`, so
`runparser` (named `"digit"`) fails quoting the remainder; on `"5"` the
remainder is empty and the value is returned. -/
theorem runparser_remainder_spec_witness :
    runparser "digit".toList digit "5x".toList false =
      .error (runparserMsg "digit".toList "x".toList) ∧
    runparser "digit".toList digit "5".toList false = .ok (.vstr ['5']) :=
  ⟨(runparser_remainder_spec.1 "digit".toList digit "5x".toList (.vstr ['5'])
      "x".toList (by decide)).1 (by decide),
   (runparser_remainder_spec.1 "digit".toList digit "5".toList (.vstr ['5'])
      [] (by decide)).2 rfl⟩

/-- C9: for every input string, parsing terminates with work bounded
linearly by the input length: with fuel `4·length + 4` — where the fuel
decreases on every recursive grammar call and every `many` iteration
must consume input to continue — the grammar always completes, either
returning a value or failing, and `full_expression` is exactly that
completed result (so `parse_expression` always returns a value or
fails). -/
theorem parse_expression_terminates :
    ∀ s : Str, run (4 * s.length + 4) Call.full s = some (full_expression s) ∧
      ((∃ v, parse_expression s = .ok v) ∨ (∃ e, parse_expression s = .error e)) := by
  intro s
  obtain ⟨res, h⟩ := run_some (4 * s.length + 4) Call.full s (by simp [callWeight])
  constructor
  · rw [h]
    simp [full_expression, h]
  · cases hp : parse_expression s with
    | ok v => exact Or.inl ⟨v, rfl⟩
    | error e => exact Or.inr ⟨e, rfl⟩

/-- C10: every parser built from the library's primitives and
combinators — and likewise every function of the recursive expression
grammar — only consumes a prefix of its input: whenever it succeeds,
the remainder it returns is a suffix of the input string. -/
theorem parsers_consume_prefix :
    (∀ p, Built p → SuffixP p) ∧
    (∀ (f : Nat) (c : Call) (s : Str) (v : Val) (r : Str),
      run f c s = some (.ok (v, r)) → r <:+ s) := by
  constructor
  · intro p hb
    induction hb with
    | digit => exact suffixP_digit
    | letter => exact suffixP_letter
    | space => exact suffixP_space
    | end_ => exact suffixP_end
    | literal lit => exact suffixP_literal lit
    | except_ letters => exact suffixP_except letters
    | anything => exact suffixP_anything
    | many p hb ih => exact suffixP_many ih
    | manyone p hb ih => exact suffixP_manyone ih
    | sequence ps hb ih => exact suffixP_sequence ps ih
    | concat ps hb ih => exact suffixP_concat ps ih
    | pmap p f hb ih => exact suffixP_pmap f ih
    | dropvalue p hb ih => exact suffixP_dropvalue ih
    | or_ ps hb ih => exact suffixP_or ps ih
    | try_ p hb ih => exact suffixP_try ih
    | errormessage msg p hb ih => exact suffixP_errormessage msg ih
  · intro f c s v r h
    exact run_suffix f c s h

/-- C10 witness: `digit` on `"5x"` leaves the suffix `"x"`. -/
theorem parsers_consume_prefix_witness : "x".toList <:+ "5x".toList :=
  parsers_consume_prefix.1 digit Built.digit "5x".toList (.vstr ['5']) "x".toList (by decide)

end Parsec
